import Mathlib

/-!
Verification of the bio-seq core: the 2-bit DNA codec and packed sequence
operations (`bio-seq/src/codec/dna.rs`) and the derive-side alphabet
analysis (`bio-seq-derive/src/codec.rs`).

Machine integers (`u8`, `usize`) are embedded as `Nat` with explicit
`% 256` / `% 2^64` wherever the Rust code can wrap.  Fallible Rust code
(`Option`, `Result`) is embedded as `Option` / `Except`.  A distinguished
`panicked` outcome models a Rust `panic!` (e.g. `.unwrap()` on `Err`),
which is neither a returned `Ok` nor a returned `Err`.
-/

namespace BioSeq

/-! ## The `Dna` codec — `bio-seq/src/codec/dna.rs`

```rust
pub enum Dna { A = 0b00, C = 0b01, G = 0b10, T = 0b11 }
```
-/

inductive Dna
  | A
  | C
  | G
  | T
deriving DecidableEq, Fintype

open Dna

/-- The discriminant of each variant, i.e. `self as u8` (`to_bits`). -/
def Dna.toBits : Dna → Nat
  | .A => 0
  | .C => 1
  | .G => 2
  | .T => 3

/-- Source `Dna::unsafe_from_bits` (release semantics): `transmute(b & 0b11)`.
The masked value is always one of the four declared discriminants, so the
transmute is total; the `debug_assert!(b < 4)` is tracked separately in the
theorems that talk about it. -/
def uncheckedFromBits (b : Nat) : Dna :=
  match b &&& 3 with
  | 0 => .A
  | 1 => .C
  | 2 => .G
  | _ => .T

/-- Source `Dna::try_from_bits`: `if b < 4 { Some(transmute(b)) } else { None }`.
For `b < 4` the transmute maps the discriminant back to its variant. -/
def tryFromBits (b : Nat) : Option Dna :=
  if b < 4 then
    some (match b with
      | 0 => .A
      | 1 => .C
      | 2 => .G
      | _ => .T)
  else none

/-- Source `Dna::to_char`, as the ASCII code of the returned `char`
(`A` 65, `C` 67, `G` 71, `T` 84). -/
def Dna.toChar : Dna → Nat
  | .A => 65
  | .C => 67
  | .G => 71
  | .T => 84

/-- Source `Dna::try_from_ascii`: match on the bytes `b'A' | b'C' | b'G' | b'T'`. -/
def tryFromAscii (c : Nat) : Option Dna :=
  if c = 65 then some .A
  else if c = 67 then some .C
  else if c = 71 then some .G
  else if c = 84 then some .T
  else none

/-- The raw value `((b << 1) + b) >> 3` computed by `Dna::unsafe_from_ascii`
in 8-bit arithmetic: left shift discards high bits (`% 256`), the addition
wraps (`% 256` — it never actually wraps for the four valid inputs), and
`>> 3` is division by 8. -/
def asciiRaw (b : Nat) : Nat :=
  ((b * 2 % 256) + b) % 256 / 8

/-- Source `Dna::unsafe_from_ascii`: `Dna::unsafe_from_bits(((b << 1) + b) >> 3)`. -/
def uncheckedFromAscii (b : Nat) : Dna :=
  uncheckedFromBits (asciiRaw b)

/-- Source `ComplementMut for Dna`: `*self = Dna::unsafe_from_bits(*self as u8 ^ 0b11)`. -/
def Dna.comp (s : Dna) : Dna :=
  uncheckedFromBits (s.toBits ^^^ 3)

/-- C3: For every Dna symbol `s`, `try_from_bits(to_bits(s)) = Some(s)`,
`unsafe_from_bits(to_bits(s)) = s`, and `try_from_ascii(to_char(s)) = Some(s)`;
moreover `try_from_bits(b)` returns `Some` exactly when `b < 4`. -/
theorem dna_conversion_round_trips :
    (∀ s : Dna, tryFromBits s.toBits = some s ∧
      uncheckedFromBits s.toBits = s ∧
      tryFromAscii s.toChar = some s) ∧
    (∀ b : Nat, (tryFromBits b).isSome ↔ b < 4) := by
  refine ⟨by decide, fun b => ?_⟩
  unfold tryFromBits
  split <;> simp_all

/-- C4: complement (XOR of the code with the mask `0b11`) is an involution
on the four Dna symbols, a bijection with no fixed points, pairing A with T
and C with G. -/
theorem dna_comp_involution_bijection :
    (∀ s : Dna, s.comp.comp = s) ∧
    Function.Bijective Dna.comp ∧
    (∀ s : Dna, s.comp ≠ s) ∧
    Dna.comp .A = .T ∧ Dna.comp .T = .A ∧
    Dna.comp .C = .G ∧ Dna.comp .G = .C := by
  refine ⟨by decide, ⟨fun a b h => ?_, fun s => ?_⟩, by decide, rfl, rfl, rfl, rfl⟩
  · revert h; revert a b; decide
  · exact ⟨s.comp, by revert s; decide⟩

/-- C8 (code bug evidence): the branch-free path `((b << 1) + b) >> 3` maps
each of the four valid input bytes to the right symbol, but the raw value it
passes to `unsafe_from_bits` is 24/25/26/31 — never `< 4` — so the
`debug_assert!(b < 4)` inside `unsafe_from_bits` fires on every valid input
in a debug build. -/
theorem dna_ascii_fast_path_trips_debug_assert :
    uncheckedFromAscii 65 = .A ∧ uncheckedFromAscii 67 = .C ∧
    uncheckedFromAscii 71 = .G ∧ uncheckedFromAscii 84 = .T ∧
    asciiRaw 65 = 24 ∧ asciiRaw 67 = 25 ∧
    asciiRaw 71 = 26 ∧ asciiRaw 84 = 31 ∧
    ¬ (asciiRaw 65 < 4) ∧ ¬ (asciiRaw 67 < 4) ∧
    ¬ (asciiRaw 71 < 4) ∧ ¬ (asciiRaw 84 < 4) := by
  decide

/-- C10: `unsafe_from_bits` is total and depends only on the low two bits:
for every `b`, the result is the symbol whose code is `b % 4`, hence never a
value outside the four declared codes. -/
theorem dna_from_bits_masks_low_two_bits :
    ∀ b : Nat, uncheckedFromBits b = uncheckedFromBits (b % 4) ∧
      (uncheckedFromBits b).toBits = b % 4 := by
  intro b
  have hmask : ∀ x : Nat, x &&& 3 = x % 4 := fun x => by
    have h := Nat.and_pow_two_sub_one_eq_mod x 2
    norm_num at h
    exact h
  have hb : b % 4 = 0 ∨ b % 4 = 1 ∨ b % 4 = 2 ∨ b % 4 = 3 := by omega
  have hmm : b % 4 % 4 = b % 4 := by omega
  constructor
  · unfold uncheckedFromBits
    rw [hmask b, hmask (b % 4), hmm]
  · unfold uncheckedFromBits
    rw [hmask b]
    rcases hb with h | h | h | h <;> rw [h] <;> rfl

/-! ## The width resolver — `bio-seq-derive/src/codec.rs`, `parse_width`

```rust
let min_width: u8 = f32::ceil(f32::log2(f32::from(max_variant + 1))) as u8;
```

`max_variant + 1` is `u8` arithmetic: for `max_variant = 255` it wraps to `0`
in a release build (and panics in a debug build); we embed the release
(wrapping) semantics as `% 256`.  For arguments `n` with `1 ≤ n ≤ 256` the
`f32` pipeline is exact: `f32::from` is exact on `u8` values, `log2` of an
exact power of two is an exact integer, and for the remaining `n` the real
`log2 n` is at least `5.6e-3` away from any integer while the rounding error
of a faithful `f32` `log2` is below `1e-6`, so `ceil` of the computed value
equals `⌈log2 n⌉`.  For the wrapped argument `0`, `log2(0.0) = -inf`,
`ceil(-inf) = -inf`, and the saturating `as u8` cast yields `0`.  We embed
the pipeline as `ceilLog2`, an executable ceiling-of-log2 with
`ceilLog2 0 = 0`, proved equal to `Nat.clog 2` below. -/

def ceilLog2Aux : Nat → Nat → Nat
  | 0, _ => 0
  | fuel+1, n => if n ≤ 1 then 0 else ceilLog2Aux fuel ((n + 1) / 2) + 1

/-- Executable `⌈log2 n⌉` (with value 0 at `n = 0`), fuelled so that the
kernel can evaluate it. -/
def ceilLog2 (n : Nat) : Nat := ceilLog2Aux n n

theorem ceilLog2Aux_eq_clog : ∀ fuel n, n ≤ fuel → ceilLog2Aux fuel n = Nat.clog 2 n := by
  intro fuel
  induction fuel with
  | zero =>
    intro n hn
    interval_cases n
    simp [ceilLog2Aux]
  | succ fuel ih =>
    intro n hn
    by_cases h1 : n ≤ 1
    · rw [ceilLog2Aux, if_pos h1, Nat.clog_of_right_le_one h1]
    · have h2 : 2 ≤ n := by omega
      rw [ceilLog2Aux, if_neg h1, Nat.clog_of_two_le (by norm_num) h2,
        ih ((n + 1) / 2) (by omega)]
      norm_num

theorem ceilLog2_eq_clog (n : Nat) : ceilLog2 n = Nat.clog 2 n :=
  ceilLog2Aux_eq_clog n n le_rfl

/-- The `min_width` computed by `parse_width` (release semantics of the
`u8` increment; see the comment above on the exactness of the `f32` steps). -/
def min_width (max_variant : Nat) : Nat :=
  ceilLog2 ((max_variant + 1) % 256)

/-- Outcome of `parse_width`: `ok` models `Ok(width)`, `widthTooSmall m`
models `Err(syn::Error)` whose message carries the computed minimum `m`
(`"Bit width is not large enough encode all variants (min: {min_width})"`),
and `panicked` models the `w.base10_parse::<u8>().unwrap()` panic on an
integer literal that does not fit in `u8`. -/
inductive WidthOutcome
  | ok (w : Nat)
  | widthTooSmall (minw : Nat)
  | panicked
deriving DecidableEq

/-- Source `parse_width`: `requested = some w` models the presence of a
`#[bits(w)]` attribute with a non-negative integer literal `w`;
`none` models its absence. -/
def parse_width (requested : Option Nat) (max_variant : Nat) : WidthOutcome :=
  match requested with
  | none => .ok (min_width max_variant)
  | some w =>
    if w < 256 then
      if w < min_width max_variant then .widthTooSmall (min_width max_variant)
      else .ok w
    else .panicked

/-- C1 counterexample: at `max_code = 255` the `u8` increment wraps, and
`parse_width` resolves width `0` rather than `⌈log2 256⌉ = 8` (in a debug
build it panics instead). -/
theorem parse_width_wraps_at_255 :
    parse_width none 255 = .ok 0 ∧ Nat.clog 2 (255 + 1) = 8 ∧
    WidthOutcome.ok 0 ≠ WidthOutcome.ok 8 := by
  refine ⟨by decide, ?_, by decide⟩
  rw [← ceilLog2_eq_clog]
  decide

/-- C1 (amended): with no requested width, `parse_width` resolves exactly
`⌈log2 (max_code + 1)⌉` for every `max_code` in `0..=254`; at
`max_code = 255` the `u8` increment overflows and the resolved width is `0`
(release) instead of 8. -/
theorem parse_width_min_is_clog :
    (∀ n : Nat, n ≤ 254 → parse_width none n = .ok (Nat.clog 2 (n + 1))) ∧
    parse_width none 255 = .ok 0 := by
  refine ⟨fun n hn => ?_, by decide⟩
  show WidthOutcome.ok (min_width n) = WidthOutcome.ok (Nat.clog 2 (n + 1))
  rw [min_width, Nat.mod_eq_of_lt (by omega), ceilLog2_eq_clog]

/-- Witness for C1's amended theorem at `max_code = 254`. -/
theorem parse_width_min_is_clog_witness :
    parse_width none 254 = .ok (Nat.clog 2 255) :=
  parse_width_min_is_clog.1 254 (by decide)

/-- C5 counterexample: a `#[bits(256)]` literal makes
`base10_parse::<u8>().unwrap()` panic, so for `w = 256 ≥ min_width` the
resolved width is not `w` — the claim quantifies over every requested `w`. -/
theorem parse_width_panics_above_255 :
    parse_width (some 256) 3 = .panicked ∧
    WidthOutcome.panicked ≠ WidthOutcome.ok 256 ∧
    min_width 3 ≤ 256 := by
  decide

/-- C5 (amended): for a requested width `w ≤ 255`, `parse_width` fails iff
`w < min_width`, the error carries the computed `min_width`, and for
`w ≥ min_width` the resolved width is exactly `w`; requesting width 1 for a
4-symbol alphabet fails reporting minimum 2.  (A literal above 255 panics in
the `u8` parse instead.) -/
theorem parse_width_requested_spec :
    (∀ max_variant w : Nat, w ≤ 255 →
      ((∃ m, parse_width (some w) max_variant = .widthTooSmall m) ↔
        w < min_width max_variant) ∧
      (w < min_width max_variant →
        parse_width (some w) max_variant = .widthTooSmall (min_width max_variant)) ∧
      (min_width max_variant ≤ w →
        parse_width (some w) max_variant = .ok w)) ∧
    parse_width (some 1) 3 = .widthTooSmall 2 := by
  refine ⟨fun maxv w hw => ?_, by decide⟩
  have h256 : w < 256 := by omega
  refine ⟨⟨fun ⟨m, hm⟩ => ?_, fun h => ⟨min_width maxv, ?_⟩⟩, fun h => ?_, fun h => ?_⟩
  · by_contra hge
    rw [parse_width, if_pos h256, if_neg hge] at hm
    exact WidthOutcome.noConfusion hm
  · rw [parse_width, if_pos h256, if_pos h]
  · rw [parse_width, if_pos h256, if_pos h]
  · rw [parse_width, if_pos h256, if_neg (by omega)]

/-- Witness for C5's amended theorem at `max_variant = 3`, `w = 4`. -/
theorem parse_width_requested_spec_witness :
    parse_width (some 4) 3 = .ok 4 :=
  (parse_width_requested_spec.1 3 4 (by decide)).2.2 (by decide)

/-! ## The variant parser — `bio-seq-derive/src/codec.rs`, `parse_variants`

A declared enum variant carries an identifier (embedded as its list of
ASCII bytes), an optional discriminant expression, and a list of
attributes.  Match arms of the generated code are embedded as pairs: a
`to_chars` arm `Self::#ident => #char` becomes `(variant index, byte)`, a
`from_chars`/`alts` arm `#byte => Some(Self::#ident)` becomes
`(byte, variant index)`.  The `unsafe_alts` vector receives exactly the
same pairs as `alts` (only the arm bodies differ), so `alts` stands for
both. -/

/-- A discriminant literal: `byte` models `syn::Lit::Byte` (value is a `u8`),
`int` models `syn::Lit::Int` (a non-negative base-10 literal of any size),
`other` models any other literal (string, float, ...). -/
inductive Lit
  | byte (b : Nat)
  | int (n : Nat)
  | other
deriving DecidableEq

/-- A variant attribute: `#[display('c')]`, `#[alt(d, ...)]`, or anything
else (ignored by the loop). -/
inductive Attr
  | display (c : Nat)
  | alt (ds : List Nat)
  | other
deriving DecidableEq

/-- A declared enum variant.  `disc = none` models a missing discriminant
(the code treats a non-literal discriminant expression the same way). -/
structure Variant where
  name : List Nat
  disc : Option Lit
  attrs : List Attr
deriving DecidableEq

/-- Outcome classification for `parse_variants`: the two `syn::Error`
returns, plus `panicked` modelling `lit_int.base10_parse::<u8>().unwrap()`
on an integer literal outside `0..=255`. -/
inductive VariantError
  | invalidDiscriminantType
  | missingDiscriminant
  | panicked
deriving DecidableEq

/-- The discriminant handling of the loop body (`codec.rs` lines 105-127). -/
def parseDiscValue : Option Lit → Except VariantError Nat
  | some (.byte b) => .ok b
  | some (.int n) => if n ≤ 255 then .ok n else .error .panicked
  | some .other => .error .invalidDiscriminantType
  | none => .error .missingDiscriminant

/-- The attribute loop (`codec.rs` lines 131-145): starting from the first
byte of the identifier, a `display` attribute replaces the output byte, an
`alt` attribute appends its bytes to the variant's alt list. -/
def processAttrs (fb : Nat) (attrs : List Attr) : Nat × List Nat :=
  attrs.foldl
    (fun st a =>
      match a with
      | .display c => (c, st.2)
      | .alt ds => (st.1, st.2 ++ ds)
      | .other => st)
    (fb, [])

/-- The output byte (`char_repr`) of a variant after the attribute loop. -/
def charRepr (v : Variant) : Nat := (processAttrs (v.name.headD 0) v.attrs).1

/-- The alt bytes contributed by a variant's `alt` attributes, in order. -/
def altBytes (v : Variant) : List Nat := (processAttrs (v.name.headD 0) v.attrs).2

/-- The vectors assembled by `parse_variants` (the `idents` vector is the
list of indices itself and is left implicit; `unsafe_alts` duplicates
`alts`). -/
structure CodecVariants where
  to_chars : List (Nat × Nat)
  from_chars : List (Nat × Nat)
  alts : List (Nat × Nat)
  max_discriminant : Nat
deriving DecidableEq

/-- The loop of `parse_variants`, processing the variants in order with
`i` the index of the first one; the first error aborts the whole parse.
Per variant, the discriminant arm is pushed to `alts` first (line 118),
then the alt-attribute arms (line 141), then the `to_chars` and
`from_chars` arms (lines 147-148). -/
def parseVariantsAux (i : Nat) : List Variant → Except VariantError CodecVariants
  | [] => .ok ⟨[], [], [], 0⟩
  | v :: rest =>
    match parseDiscValue v.disc with
    | .error e => .error e
    | .ok value =>
      match parseVariantsAux (i + 1) rest with
      | .error e => .error e
      | .ok st =>
        .ok ⟨(i, charRepr v) :: st.to_chars,
             (charRepr v, i) :: st.from_chars,
             ((value, i) :: (altBytes v).map (fun d => (d, i))) ++ st.alts,
             max value st.max_discriminant⟩

/-- Source `parse_variants` (`codec.rs` lines 89-159). -/
def parse_variants (vs : List Variant) : Except VariantError CodecVariants :=
  parseVariantsAux 0 vs

/-- The last `display` byte among a list of attributes, if any
(the loop overwrites `char_repr` on each `display`, so the last one wins). -/
def lastDisp : List Attr → Option Nat
  | [] => none
  | .display c :: tl => some ((lastDisp tl).getD c)
  | _ :: tl => lastDisp tl

/-- Whether an attribute is not an `alt` attribute. -/
def notAlt : Attr → Bool
  | .alt _ => false
  | _ => true

theorem processAttrs_foldl_fst :
    ∀ (attrs : List Attr) (fb : Nat) (acc : List Nat),
      (attrs.foldl
        (fun st a =>
          match a with
          | .display c => (c, st.2)
          | .alt ds => (st.1, st.2 ++ ds)
          | .other => st)
        (fb, acc)).1 = (lastDisp attrs).getD fb := by
  intro attrs
  induction attrs with
  | nil => intro fb acc; rfl
  | cons a tl ih =>
    intro fb acc
    cases a with
    | display c => simp [List.foldl_cons, lastDisp, ih]
    | alt ds => simp [List.foldl_cons, lastDisp, ih]
    | other => simp [List.foldl_cons, lastDisp, ih]

theorem charRepr_eq_lastDisp (v : Variant) :
    charRepr v = (lastDisp v.attrs).getD (v.name.headD 0) :=
  processAttrs_foldl_fst v.attrs (v.name.headD 0) []

theorem lastDisp_filter_notAlt :
    ∀ attrs : List Attr, lastDisp (attrs.filter notAlt) = lastDisp attrs := by
  intro attrs
  induction attrs with
  | nil => rfl
  | cons a tl ih => cases a <;> simp [List.filter_cons, notAlt, lastDisp, ih]

theorem parseVariantsAux_mem :
    ∀ (vs : List Variant) (i : Nat) (cv : CodecVariants),
      parseVariantsAux i vs = .ok cv →
      ∀ (k : Nat) (v : Variant), vs[k]? = some v →
        (i + k, charRepr v) ∈ cv.to_chars ∧
        (charRepr v, i + k) ∈ cv.from_chars ∧
        ∀ d ∈ altBytes v, (d, i + k) ∈ cv.alts := by
  intro vs
  induction vs with
  | nil => intro i cv _ k v hk; simp at hk
  | cons w rest ih =>
    intro i cv hok k v hk
    rw [parseVariantsAux] at hok
    cases hd : parseDiscValue w.disc with
    | error e => rw [hd] at hok; exact Except.noConfusion hok
    | ok value =>
      rw [hd] at hok
      cases hr : parseVariantsAux (i + 1) rest with
      | error e => rw [hr] at hok; exact Except.noConfusion hok
      | ok st =>
        rw [hr] at hok
        injection hok with hok
        subst hok
        cases k with
        | zero =>
          rw [List.getElem?_cons_zero] at hk
          injection hk with hk
          subst hk
          refine ⟨by simp, by simp, fun d hd' => ?_⟩
          simp only [List.mem_append, List.mem_cons, List.mem_map]
          exact Or.inl (Or.inr ⟨d, hd', rfl⟩)
        | succ k' =>
          rw [List.getElem?_cons_succ] at hk
          have h := ih (i + 1) st hr k' v hk
          have harith : i + 1 + k' = i + (k' + 1) := by omega
          rw [harith] at h
          refine ⟨by simp [h.1], by simp [h.2.1], fun d hd' => ?_⟩
          simp only [List.mem_append]
          exact Or.inr (h.2.2 d hd')

theorem parseVariantsAux_to_chars_inv :
    ∀ (vs : List Variant) (i : Nat) (cv : CodecVariants),
      parseVariantsAux i vs = .ok cv →
      ∀ j b, (j, b) ∈ cv.to_chars →
        ∃ k v, vs[k]? = some v ∧ j = i + k ∧ b = charRepr v := by
  intro vs
  induction vs with
  | nil =>
    intro i cv hok j b hmem
    rw [parseVariantsAux] at hok
    injection hok with hok
    subst hok
    simp at hmem
  | cons w rest ih =>
    intro i cv hok j b hmem
    rw [parseVariantsAux] at hok
    cases hd : parseDiscValue w.disc with
    | error e => rw [hd] at hok; exact Except.noConfusion hok
    | ok value =>
      rw [hd] at hok
      cases hr : parseVariantsAux (i + 1) rest with
      | error e => rw [hr] at hok; exact Except.noConfusion hok
      | ok st =>
        rw [hr] at hok
        injection hok with hok
        subst hok
        simp only [List.mem_cons] at hmem
        rcases hmem with h | h
        · injection h with h1 h2
          exact ⟨0, w, by simp, by omega, h2⟩
        · obtain ⟨k, v, hk, hj, hb⟩ := ih (i + 1) st hr j b h
          exact ⟨k + 1, v, by simpa using hk, by omega, hb⟩

/-- C7: in `parse_variants`, for every declared symbol the output byte
defaults to the first byte of the symbol's name and is replaced by the
`display` annotation's byte when present; each `alt` byte contributes an
input-only arm for the same symbol, appended alongside the
name/display-derived input arm; and the output (`to_chars`) arms carry
only `charRepr` bytes, which do not depend on `alt` attributes. -/
theorem parse_variants_char_mappings :
    ∀ (vs : List Variant) (cv : CodecVariants), parse_variants vs = .ok cv →
      (∀ (i : Nat) (v : Variant), vs[i]? = some v →
        (lastDisp v.attrs = none → charRepr v = v.name.headD 0) ∧
        (∀ c, lastDisp v.attrs = some c → charRepr v = c) ∧
        (i, charRepr v) ∈ cv.to_chars ∧
        (charRepr v, i) ∈ cv.from_chars ∧
        (∀ d ∈ altBytes v, (d, i) ∈ cv.alts)) ∧
      (∀ j b, (j, b) ∈ cv.to_chars → ∃ v, vs[j]? = some v ∧ b = charRepr v) ∧
      (∀ v : Variant,
        charRepr { v with attrs := v.attrs.filter notAlt } = charRepr v) := by
  intro vs cv hok
  refine ⟨fun i v hi => ?_, fun j b hmem => ?_, fun v => ?_⟩
  · obtain ⟨h1, h2, h3⟩ := parseVariantsAux_mem vs 0 cv hok i v hi
    rw [Nat.zero_add] at h1 h2
    refine ⟨fun hnone => ?_, fun c hc => ?_, h1, h2, fun d hd => ?_⟩
    · rw [charRepr_eq_lastDisp, hnone]; rfl
    · rw [charRepr_eq_lastDisp, hc]; rfl
    · have := h3 d hd; rwa [Nat.zero_add] at this
  · obtain ⟨k, v, hk, hj, hb⟩ := parseVariantsAux_to_chars_inv vs 0 cv hok j b hmem
    rw [Nat.zero_add] at hj
    subst hj
    exact ⟨v, hk, hb⟩
  · rw [charRepr_eq_lastDisp, charRepr_eq_lastDisp]
    simp only [lastDisp_filter_notAlt]

/-- Witness for C7 on the one-variant alphabet `X = b'X'` with
`#[display('Y')]` and `#[alt(97)]`. -/
theorem parse_variants_char_mappings_witness :
    (0, 89) ∈ (CodecVariants.mk [(0, 89)] [(89, 0)] [(88, 0), (97, 0)] 88).to_chars ∧
    (97, 0) ∈ (CodecVariants.mk [(0, 89)] [(89, 0)] [(88, 0), (97, 0)] 88).alts := by
  have hok : parse_variants [⟨[88], some (.byte 88), [.display 89, .alt [97]]⟩] =
      .ok ⟨[(0, 89)] , [(89, 0)], [(88, 0), (97, 0)], 88⟩ := rfl
  have h := (parse_variants_char_mappings _ _ hok).1 0
    ⟨[88], some (.byte 88), [.display 89, .alt [97]]⟩ rfl
  have hcr : charRepr ⟨[88], some (.byte 88), [.display 89, .alt [97]]⟩ = 89 := rfl
  refine ⟨?_, ?_⟩
  · have := h.2.2.1; rwa [hcr] at this
  · exact h.2.2.2.2 97 (by simp [altBytes, processAttrs])

/-- All discriminants before a given variant parse successfully. -/
def discOk (v : Variant) : Prop := ∃ k, parseDiscValue v.disc = .ok k

theorem parseVariantsAux_error_append :
    ∀ (pre : List Variant) (i : Nat) (v : Variant) (rest : List Variant)
      (e : VariantError),
      (∀ u ∈ pre, discOk u) → parseDiscValue v.disc = .error e →
      parseVariantsAux i (pre ++ v :: rest) = .error e := by
  intro pre
  induction pre with
  | nil =>
    intro i v rest e _ hv
    rw [List.nil_append, parseVariantsAux, hv]
  | cons u tl ih =>
    intro i v rest e hpre hv
    obtain ⟨k, hk⟩ := hpre u (List.mem_cons_self u tl)
    rw [List.cons_append, parseVariantsAux, hk,
      ih (i + 1) v rest e (fun w hw => hpre w (List.mem_cons_of_mem u hw)) hv]

/-- C6 counterexample: a declared symbol whose integer discriminant is 256
makes `parse_variants` panic (`base10_parse::<u8>().unwrap()`) instead of
returning the structured `InvalidDiscriminantType` error. -/
theorem parse_variants_panics_on_large_int :
    parse_variants [⟨[88], some (.int 256), []⟩] = .error .panicked ∧
    VariantError.panicked ≠ VariantError.invalidDiscriminantType :=
  ⟨rfl, by decide⟩

/-- C6 (amended): `parse_variants` returns the structured
`InvalidDiscriminantType` error for the first symbol whose discriminant is a
literal that is neither an integer nor a byte; an integer literal outside
`0..=255` instead panics in the `u8` parse (a non-returned abort). -/
theorem parse_variants_discriminant_errors :
    ∀ (pre : List Variant) (v : Variant) (rest : List Variant),
      (∀ u ∈ pre, discOk u) →
      (v.disc = some .other →
        parse_variants (pre ++ v :: rest) = .error .invalidDiscriminantType) ∧
      (∀ n, v.disc = some (.int n) → 255 < n →
        parse_variants (pre ++ v :: rest) = .error .panicked) := by
  intro pre v rest hpre
  constructor
  · intro hv
    exact parseVariantsAux_error_append pre 0 v rest _ hpre (by rw [hv]; rfl)
  · intro n hv hn
    refine parseVariantsAux_error_append pre 0 v rest _ hpre ?_
    rw [hv]
    simp only [parseDiscValue]
    rw [if_neg (by omega)]

/-- Witness for C6's amended theorem: a string-literal discriminant after a
valid variant yields the structured error. -/
theorem parse_variants_discriminant_errors_witness :
    parse_variants [⟨[65], some (.byte 65), []⟩, ⟨[66], some .other, []⟩] =
      .error .invalidDiscriminantType :=
  (parse_variants_discriminant_errors [⟨[65], some (.byte 65), []⟩]
    ⟨[66], some .other, []⟩ []
    (fun u hu => by
      rcases List.mem_singleton.mp hu with h
      exact ⟨65, by rw [h]; rfl⟩)).1 rfl

/-! ## The packed sequence `Seq<Dna>`

`Seq`'s definition lives in `bio-seq/src/seq.rs`, which is not among the
given sources; only its `set` method and its bincode `Encode`/`Decode`
impls are (`dna.rs` lines 108-148).  Per §3/§4.4 of the spec, the container
is a contiguous bit vector of `length × BITS` logical bits backed by
`usize` (64-bit) words, with the 2-bit slot of element `i` at bit offset
`2 i`, most-significant bit first within the slot.  We embed the logical
bit vector as a `List Bool` and derive the word view (`Lsb0`: logical bit
`64 w + t` is bit `t` of word `w`) from it. -/

/-- Modelled from the spec: the `Seq<Dna>` container (spec §3
`PackedSequence`), as its symbol count and its logical bit vector;
`bio-seq/src/seq.rs` is not among the given sources. -/
structure PackedSeq where
  len : Nat
  bits : List Bool
deriving DecidableEq

/-- The value of a word from its 64 logical bits, least significant first. -/
def bitsToNat : List Bool → Nat
  | [] => 0
  | b :: bs => (if b then 1 else 0) + 2 * bitsToNat bs

/-- The `k` low bits of a word, least significant first. -/
def natToBits : Nat → Nat → List Bool
  | 0, _ => []
  | k + 1, n => decide (n % 2 = 1) :: natToBits k (n / 2)

/-- Word-packing of the logical bit vector, 64 bits per word, zero-padded
up to a whole-word boundary; fuelled by the list length so that the kernel
can evaluate it. -/
def packAux : Nat → List Bool → List Nat
  | 0, _ => []
  | _ + 1, [] => []
  | fuel + 1, b :: tl => bitsToNat ((b :: tl).take 64) :: packAux fuel ((b :: tl).drop 64)

/-- Modelled from the spec: the backing word vector of the container
(spec §3: storage padded up to whole-word boundaries). -/
def pack (bs : List Bool) : List Nat := packAux bs.length bs

/-- The logical bits stored in a word vector. -/
def unpack : List Nat → List Bool
  | [] => []
  | w :: ws => natToBits 64 w ++ unpack ws

/-- Modelled from the spec: `Seq::into_raw` exposes the backing words
(spec §4.4). -/
def into_raw (c : PackedSeq) : List Nat := pack c.bits

/-- Modelled from the spec: `Seq::from_raw(len, words)` validates that
`words` holds at least `ceil(len × BITS / 64)` words and reconstructs the
container from the supplied words, else returns `None` (spec §4.4). -/
def from_raw (len : Nat) (words : List Nat) : Option PackedSeq :=
  if (len * 2 + 63) / 64 ≤ words.length then
    some ⟨len, (unpack words).take (len * 2)⟩
  else none

/-- Source `bincode::Encode for Seq<Dna>` (`dna.rs` lines 119-126): serialize the
pair `(self.len(), self.into_raw())`; the bincode framing of that pair is
the external framework's and is the identity at this boundary. -/
def encode (c : PackedSeq) : Nat × List Nat := (c.len, into_raw c)

/-- Source `bincode::Decode for Seq<Dna>` (`dna.rs` lines 128-137): read the
`(len, words)` pair and reconstruct via `from_raw`; `none` stands for
`DecodeError::Other("Failed to recreate the DNA sequence from its raw
parts")`. -/
def decode (p : Nat × List Nat) : Option PackedSeq := from_raw p.1 p.2

/-- Modelled from the spec: reading the 2-bit slot of element `i` (bit
offset `2 i`, most significant bit first) as a raw code (spec §4.4 `get`). -/
def slotBits (c : PackedSeq) (i : Nat) : Nat :=
  2 * (if c.bits.getD (2 * i) false then 1 else 0) +
    (if c.bits.getD (2 * i + 1) false then 1 else 0)

/-- Modelled from the spec: `get` converts the slot through the codec's
unchecked path (spec §4.4). -/
def seqGet (c : PackedSeq) (i : Nat) : Dna := uncheckedFromBits (slotBits c i)

/-- Source `Seq::<Dna>::set` (`dna.rs` lines 108-117): `offset = pos << 1`, then
`slice.set(offset, (val & 0b10) != 0); slice.set(offset + 1, (val & 0b01) != 0)`. -/
def seqSet (c : PackedSeq) (pos : Nat) (base : Dna) : PackedSeq :=
  { c with bits :=
      ((c.bits.set (pos <<< 1) (decide ((base.toBits &&& 2) ≠ 0))).set
        ((pos <<< 1) + 1) (decide ((base.toBits &&& 1) ≠ 0))) }

/-- Modelled from the spec: the container built from a list of symbols
(e.g. the `dna!("...")` text constructor), each symbol contributing its
2-bit code most-significant bit first (spec §3/§4.4). -/
def seqOfSyms (syms : List Dna) : PackedSeq :=
  ⟨syms.length,
    syms.flatMap (fun s => [decide ((s.toBits &&& 2) ≠ 0), decide ((s.toBits &&& 1) ≠ 0)])⟩

theorem natToBits_bitsToNat :
    ∀ (bs : List Bool) (k : Nat), bs.length ≤ k →
      natToBits k (bitsToNat bs) = bs ++ List.replicate (k - bs.length) false := by
  intro bs
  induction bs with
  | nil =>
    intro k _
    simp only [List.nil_append, List.length_nil, Nat.sub_zero]
    induction k with
    | zero => rfl
    | succ k ihk => rw [natToBits, bitsToNat] at *; simp [ihk, List.replicate_succ]
  | cons b tl ih =>
    intro k hk
    cases k with
    | zero => simp at hk
    | succ k' =>
      rw [natToBits, bitsToNat]
      have hmod : ((if b then 1 else 0) + 2 * bitsToNat tl) % 2 = if b then 1 else 0 := by
        cases b <;> simp
      have hdiv : ((if b then 1 else 0) + 2 * bitsToNat tl) / 2 = bitsToNat tl := by
        cases b <;> simp
        omega
      rw [hmod, hdiv, ih k' (by simpa using hk)]
      cases b <;> simp [List.length_cons, Nat.succ_sub_succ]

theorem unpack_packAux_take :
    ∀ (fuel : Nat) (bs : List Bool), bs.length ≤ fuel →
      (unpack (packAux fuel bs)).take bs.length = bs := by
  intro fuel
  induction fuel with
  | zero =>
    intro bs hbs
    have : bs = [] := List.length_eq_zero.mp (by omega)
    subst this; rfl
  | succ fuel ih =>
    intro bs hbs
    cases bs with
    | nil => rfl
    | cons b tl =>
      rw [packAux, unpack]
      have htk : (List.take 64 (b :: tl)).length ≤ 64 := by
        simp
      rw [natToBits_bitsToNat _ 64 htk]
      by_cases hle : (b :: tl).length ≤ 64
      · rw [List.take_of_length_le hle]
        rw [List.append_assoc, List.take_left]
      · have hlen : (List.take 64 (b :: tl)).length = 64 := by
          rw [List.length_take]; omega
        have hdlen : (List.drop 64 (b :: tl)).length = (b :: tl).length - 64 :=
          List.length_drop 64 (b :: tl)
        have hih := ih (List.drop 64 (b :: tl)) (by rw [hdlen]; simp only [List.length_cons] at hbs hle ⊢; omega)
        rw [hdlen] at hih
        rw [hlen, Nat.sub_self, List.replicate_zero, List.append_nil,
          List.take_append_eq_append_take, hlen,
          List.take_of_length_le (le_of_eq_of_le hlen (by omega)), hih]
        exact List.take_append_drop 64 (b :: tl)

theorem unpack_pack_take (bs : List Bool) : (unpack (pack bs)).take bs.length = bs :=
  unpack_packAux_take bs.length bs le_rfl

theorem packAux_length :
    ∀ (fuel : Nat) (bs : List Bool), bs.length ≤ fuel →
      (packAux fuel bs).length = (bs.length + 63) / 64 := by
  intro fuel
  induction fuel with
  | zero =>
    intro bs hbs
    have : bs = [] := List.length_eq_zero.mp (by omega)
    subst this; rfl
  | succ fuel ih =>
    intro bs hbs
    cases bs with
    | nil => rfl
    | cons b tl =>
      rw [packAux]
      have hdl : (List.drop 64 (b :: tl)).length = (b :: tl).length - 64 :=
        List.length_drop 64 (b :: tl)
      rw [List.length_cons,
        ih _ (by rw [hdl]; simp only [List.length_cons] at hbs ⊢; omega), hdl]
      simp only [List.length_cons]
      omega

theorem pack_length (bs : List Bool) : (pack bs).length = (bs.length + 63) / 64 :=
  packAux_length bs.length bs le_rfl

/-- C2: decoding the serialized `(length, raw words)` pair of a well-formed
packed Dna sequence reproduces a sequence with identical length and
identical symbol-by-symbol content. -/
theorem seq_encode_decode_round_trip (c : PackedSeq)
    (h : c.bits.length = 2 * c.len) :
    ∃ d, decode (encode c) = some d ∧ d.len = c.len ∧
      ∀ i, i < c.len → seqGet d i = seqGet c i := by
  have hbits : (unpack (pack c.bits)).take (c.len * 2) = c.bits := by
    have := unpack_pack_take c.bits
    rw [h] at this
    rw [show c.len * 2 = 2 * c.len by omega, this]
  have hcount : (c.len * 2 + 63) / 64 ≤ (pack c.bits).length := by
    rw [pack_length, h]; omega
  refine ⟨⟨c.len, (unpack (pack c.bits)).take (c.len * 2)⟩, ?_, rfl, fun i _ => ?_⟩
  · show from_raw c.len (pack c.bits) = _
    rw [from_raw, if_pos hcount]
  · rw [hbits]

/-- Witness for C2 on the 2-element sequence with bits `1001` (`GC`). -/
theorem seq_encode_decode_round_trip_witness :
    ∃ d, decode (encode ⟨2, [true, false, false, true]⟩) = some d ∧
      d.len = 2 ∧ ∀ i, i < 2 →
        seqGet d i = seqGet ⟨2, [true, false, false, true]⟩ i :=
  seq_encode_decode_round_trip ⟨2, [true, false, false, true]⟩ rfl

theorem getD_set_self' {α : Type} (l : List α) (i : Nat) (a d : α)
    (h : i < l.length) : (l.set i a).getD i d = a := by
  rw [List.getD_eq_getElem?_getD, List.getElem?_set_self h]; rfl

theorem getD_set_ne' {α : Type} (l : List α) (i j : Nat) (a d : α)
    (h : i ≠ j) : (l.set i a).getD j d = l.getD j d := by
  rw [List.getD_eq_getElem?_getD, List.getElem?_set_ne h, ← List.getD_eq_getElem?_getD]

/-- C9: `set(pos, base)` writes `to_bits(base)` into the 2-bit slot at bit
offset `2 pos` (most significant bit first) and leaves every other slot
unchanged; concretely, the sequence for `"AACG"` with index 1 set to `T`
equals the sequence for `"ATCG"`. -/
theorem seq_set_writes_slot :
    (∀ (c : PackedSeq) (pos : Nat) (base : Dna),
      c.bits.length = 2 * c.len → pos < c.len →
      slotBits (seqSet c pos base) pos = base.toBits ∧
      ∀ j, j < c.len → j ≠ pos → slotBits (seqSet c pos base) j = slotBits c j) ∧
    seqSet (seqOfSyms [.A, .A, .C, .G]) 1 .T = seqOfSyms [.A, .T, .C, .G] := by
  constructor
  · intro c pos base hlen hpos
    have hoff : pos <<< 1 = 2 * pos := by
      rw [Nat.shiftLeft_eq, pow_one]; omega
    have hlt0 : 2 * pos < c.bits.length := by omega
    have hlt1 : 2 * pos + 1 <
        (c.bits.set (2 * pos) (decide ((base.toBits &&& 2) ≠ 0))).length := by
      rw [List.length_set]; omega
    constructor
    · simp only [slotBits, seqSet, hoff]
      rw [getD_set_self' _ _ _ _ hlt1,
        getD_set_ne' _ _ _ _ _ (by omega),
        getD_set_self' _ _ _ _ hlt0]
      cases base <;> rfl
    · intro j hj hne
      simp only [slotBits, seqSet, hoff]
      rw [getD_set_ne' _ _ _ _ _ (by omega), getD_set_ne' _ _ _ _ _ (by omega),
        getD_set_ne' _ _ _ _ _ (by omega), getD_set_ne' _ _ _ _ _ (by omega)]
  · rfl

/-- Witness for C9's general part: setting index 1 of the `"AACG"` sequence
to `T` makes slot 1 read back `to_bits(T) = 3`. -/
theorem seq_set_writes_slot_witness :
    slotBits (seqSet (seqOfSyms [.A, .A, .C, .G]) 1 .T) 1 = Dna.toBits .T :=
  (seq_set_writes_slot.1 (seqOfSyms [.A, .A, .C, .G]) 1 .T rfl (by decide)).1

end BioSeq
